import Mathlib

/-!
Verification of the crawl-orchestration engine of the AIChatBot scrapers.

The definitions below are shallow embeddings of the Python source:
* `src/scripts/scrape-academic-info.py` — the academic-info crawler
  (`crawler_worker`, `categorize_content`, the monitor loop of
  `scrape_academic_information`, the seeding code, the dedup registry);
* `src/agent.py` — `normalize_url`, `retry_request`, and the two-tier
  priority queue discipline of `crawl_for_links`.

Concurrency is modelled by serializing the lock-guarded critical sections:
every mutation of the shared sets happens inside `with self.lock:`, so any
interleaving of workers is some sequential order of those atomic regions.
Python sets are modelled as lists with decidable membership, Python strings
as `List Char`.
-/

/-! ## Dedup registry: the visited-set claim
    (`crawler_worker`, scrape-academic-info.py lines 611-616)

    The worker executes, under `self.lock`:
      `if url in self.visited_urls or depth > CONFIG["max_depth"]: continue`
      `self.visited_urls.add(url)`
    `claimStep` is that atomic region; `true` means the worker proceeds to
    process the task. -/

def claimStep {υ : Type} [DecidableEq υ] (maxDepth : Nat) (visited : List υ)
    (url : υ) (depth : Nat) : Bool × List υ :=
  if url ∈ visited ∨ maxDepth < depth then (false, visited)
  else (true, url :: visited)

/-- A session is a serialized sequence of claim regions (the lock orders
them); `runClaims` returns each task paired with its claim outcome, plus the
final visited set. -/
def runClaims {υ : Type} [DecidableEq υ] (maxDepth : Nat) :
    List υ → List (υ × Nat) → List ((υ × Nat) × Bool) × List υ
  | visited, [] => ([], visited)
  | visited, t :: rest =>
    let s := claimStep maxDepth visited t.1 t.2
    let r := runClaims maxDepth s.2 rest
    ((t, s.1) :: r.1, r.2)

/-- Outcomes counted as "claim of `u` succeeded". -/
def claimedCount {υ : Type} [DecidableEq υ] (u : υ)
    (outs : List ((υ × Nat) × Bool)) : Nat :=
  outs.countP (fun e => decide (e.1.1 = u) && e.2)

theorem claimStep_mem_false {υ : Type} [DecidableEq υ] (maxDepth : Nat)
    (visited : List υ) (url : υ) (depth : Nat) (h : url ∈ visited) :
    claimStep maxDepth visited url depth = (false, visited) := by
  simp [claimStep, h]

theorem claimStep_visited_mono {υ : Type} [DecidableEq υ] (maxDepth : Nat)
    (visited : List υ) (url u : υ) (depth : Nat) (h : u ∈ visited) :
    u ∈ (claimStep maxDepth visited url depth).2 := by
  unfold claimStep
  split <;> simp [h]

theorem runClaims_count_zero {υ : Type} [DecidableEq υ] (maxDepth : Nat)
    (u : υ) (tasks : List (υ × Nat)) (visited : List υ) (h : u ∈ visited) :
    claimedCount u (runClaims maxDepth visited tasks).1 = 0 := by
  induction tasks generalizing visited with
  | nil => simp [runClaims, claimedCount]
  | cons t rest ih =>
    unfold runClaims
    simp only [claimedCount, List.countP_cons] at ih ⊢
    by_cases ht : t.1 = u
    · subst ht
      have hstep : claimStep maxDepth visited t.1 t.2 = (false, visited) :=
        claimStep_mem_false maxDepth visited t.1 t.2 h
      simp [hstep, ih visited h]
    · have hm : u ∈ (claimStep maxDepth visited t.1 t.2).2 :=
        claimStep_visited_mono maxDepth visited t.1 u t.2 h
      simp [ih _ hm, ht]

theorem runClaims_count_le_one {υ : Type} [DecidableEq υ] (maxDepth : Nat)
    (u : υ) (tasks : List (υ × Nat)) (visited : List υ) :
    claimedCount u (runClaims maxDepth visited tasks).1 ≤ 1 := by
  induction tasks generalizing visited with
  | nil => simp [runClaims, claimedCount]
  | cons t rest ih =>
    unfold runClaims
    simp only [claimedCount, List.countP_cons] at ih ⊢
    by_cases h1 : t.1 = u
    · subst h1
      by_cases h2 : (claimStep maxDepth visited t.1 t.2).1 = true
      · have hnew : t.1 ∈ (claimStep maxDepth visited t.1 t.2).2 := by
          by_cases hcond : t.1 ∈ visited ∨ maxDepth < t.2
          · exfalso
            simp [claimStep, hcond] at h2
          · simp [claimStep, hcond]
        have h0 := runClaims_count_zero maxDepth t.1 rest _ hnew
        simp only [claimedCount] at h0
        simp [h0, h2]
      · simp only [Bool.not_eq_true] at h2
        simp only [h2, Bool.and_false, if_neg Bool.false_ne_true, Nat.add_zero]
        exact ih _
    · simp only [h1, decide_eq_true_eq, decide_False, Bool.false_and,
        if_neg Bool.false_ne_true, Nat.add_zero]
      exact ih _

/-- C2: for every URL `u` and any interleaving of the workers' lock-guarded
claim regions in one session (started with an empty visited set), the claim
of `u` succeeds at most once: the check-and-set is one critical section, so
no two workers can both observe `u` as unvisited. -/
theorem visited_claim_at_most_once {υ : Type} [DecidableEq υ]
    (maxDepth : Nat) (u : υ) (tasks : List (υ × Nat)) :
    claimedCount u (runClaims maxDepth [] tasks).1 ≤ 1 :=
  runClaims_count_le_one maxDepth u tasks []

/-- Witness: a concrete trace in which URL 1 is dequeued three times. -/
theorem visited_claim_at_most_once_witness :
    claimedCount 1 (runClaims 5 [] [(1, 0), (2, 0), (1, 1), (1, 9)]).1 ≤ 1 :=
  visited_claim_at_most_once 5 1 [(1, 0), (2, 0), (1, 1), (1, 9)]

/-- C10: a task whose depth exceeds `max_depth` is discarded inside the same
critical section without touching the visited set, so the same URL dequeued
later at an admissible depth is still claimed and processed. -/
theorem deep_task_discarded_url_reclaimable {υ : Type} [DecidableEq υ]
    (maxDepth : Nat) (visited : List υ) (url : υ) (d1 d2 : Nat)
    (hdeep : maxDepth < d1) (hok : d2 ≤ maxDepth) (hnv : url ∉ visited) :
    claimStep maxDepth visited url d1 = (false, visited) ∧
      claimStep maxDepth (claimStep maxDepth visited url d1).2 url d2 =
        (true, url :: visited) := by
  have h1 : claimStep maxDepth visited url d1 = (false, visited) := by
    simp [claimStep, hdeep]
  refine ⟨h1, ?_⟩
  rw [h1]
  simp [claimStep, hnv, Nat.not_lt.mpr hok]

/-- Witness for C10 at a concrete state: depth 7 with max depth 5 is
discarded leaving the set unchanged, then depth 2 is claimed. -/
theorem deep_task_discarded_url_reclaimable_witness :
    claimStep 5 [9] 4 7 = (false, [9]) ∧
      claimStep 5 (claimStep 5 [9] 4 7).2 4 2 = (true, [4, 9]) :=
  deep_task_discarded_url_reclaimable 5 [9] 4 7 2 (by decide) (by decide)
    (by decide)

/-! ## Content-hash dedup and accepted records
    (`extract_content_from_page` lines 543-549, `crawler_worker` lines
    621-628 of scrape-academic-info.py)

    Under `self.lock` the worker checks `content_hash in self.content_hashes`;
    if present it bumps `stats["duplicates"]` and drops the page, otherwise it
    inserts the hash. Afterwards the page may still be dropped (category is
    `None`, i.e. a program page); otherwise the record is appended to
    `all_content`. `keep` abstracts that later category filter; `hashFn`
    abstracts `hashlib.md5(content.encode()).hexdigest()`. -/

structure DedupState (β γ : Type) where
  hashes : List β
  accepted : List γ
  duplicates : Nat
deriving DecidableEq

def processContent {β γ : Type} [DecidableEq β] (hashFn : γ → β)
    (keep : γ → Bool) (st : DedupState β γ) (c : γ) : DedupState β γ :=
  if hashFn c ∈ st.hashes then
    { st with duplicates := st.duplicates + 1 }
  else if keep c then
    { hashes := hashFn c :: st.hashes, accepted := c :: st.accepted,
      duplicates := st.duplicates }
  else
    { st with hashes := hashFn c :: st.hashes }

def runContents {β γ : Type} [DecidableEq β] (hashFn : γ → β)
    (keep : γ → Bool) (st : DedupState β γ) (cs : List γ) : DedupState β γ :=
  cs.foldl (processContent hashFn keep) st

def fingerprintsDistinct {β γ : Type} (hashFn : γ → β) (st : DedupState β γ) :
    Prop :=
  (∀ a ∈ st.accepted, hashFn a ∈ st.hashes) ∧
    st.accepted.Pairwise (fun a b => hashFn a ≠ hashFn b)

theorem processContent_invariant {β γ : Type} [DecidableEq β]
    (hashFn : γ → β) (keep : γ → Bool) (st : DedupState β γ) (c : γ)
    (h : fingerprintsDistinct hashFn st) :
    fingerprintsDistinct hashFn (processContent hashFn keep st c) := by
  obtain ⟨hsub, hpw⟩ := h
  unfold processContent
  by_cases hdup : hashFn c ∈ st.hashes
  · simpa [hdup, fingerprintsDistinct] using ⟨hsub, hpw⟩
  · by_cases hk : keep c = true
    · simp only [hdup, if_false, hk, if_true, fingerprintsDistinct]
      constructor
      · intro a ha
        rcases List.mem_cons.mp ha with rfl | ha
        · exact List.mem_cons_self _ _
        · exact List.mem_cons_of_mem _ (hsub a ha)
      · refine List.pairwise_cons.mpr ⟨?_, hpw⟩
        intro b hb hcb
        exact hdup (hcb ▸ hsub b hb)
    · simp only [hdup, if_false, hk, fingerprintsDistinct]
      exact ⟨fun a ha => List.mem_cons_of_mem _ (hsub a ha), hpw⟩

theorem runContents_invariant {β γ : Type} [DecidableEq β]
    (hashFn : γ → β) (keep : γ → Bool) (st : DedupState β γ)
    (cs : List γ) (h : fingerprintsDistinct hashFn st) :
    fingerprintsDistinct hashFn (runContents hashFn keep st cs) := by
  induction cs generalizing st with
  | nil => exact h
  | cons c rest ih =>
    exact ih _ (processContent_invariant hashFn keep st c h)

/-- C3: in a session started with an empty content-hash set, the MD5
fingerprints of the accepted records are pairwise distinct — the second
occurrence of a fingerprint is dropped inside the same lock-guarded
check-and-insert and only bumps the duplicates counter. The second conjunct
is that per-page step: a seen fingerprint leaves the hash set and the
accepted list untouched and increments `stats["duplicates"]` by one. -/
theorem accepted_fingerprints_distinct {β γ : Type} [DecidableEq β]
    (hashFn : γ → β) (keep : γ → Bool) (cs : List γ) :
    (runContents hashFn keep ⟨[], [], 0⟩ cs).accepted.Pairwise
        (fun a b => hashFn a ≠ hashFn b) ∧
      (∀ st : DedupState β γ, ∀ c : γ, hashFn c ∈ st.hashes →
        processContent hashFn keep st c =
          { st with duplicates := st.duplicates + 1 }) := by
  constructor
  · have h := runContents_invariant hashFn keep ⟨[], [], 0⟩ cs
      (by simp [fingerprintsDistinct])
    exact h.2
  · intro st c hmem
    simp [processContent, hmem]

/-- Witness: concrete contents 10, 10, 20 with the identity fingerprint; the
accepted list keeps one copy of each body and the per-step clause fires on a
state that has already seen fingerprint 10. -/
theorem accepted_fingerprints_distinct_witness :
    (runContents (fun n : Nat => n) (fun _ => true) ⟨[], [], 0⟩
        [10, 10, 20]).accepted.Pairwise (fun a b => a ≠ b) ∧
      processContent (fun n : Nat => n) (fun _ => true)
          ⟨[10], [10], 0⟩ 10 = ⟨[10], [10], 1⟩ :=
  ⟨(accepted_fingerprints_distinct (fun n : Nat => n) (fun _ => true)
      [10, 10, 20]).1,
    (accepted_fingerprints_distinct (fun n : Nat => n) (fun _ => true)
      [10, 10, 20]).2 ⟨[10], [10], 0⟩ 10 (by decide)⟩

/-! ## Frontier capacity (C4)

    Seeding (`scrape_academic_information`, lines 722-739): the seed URLs are
    partitioned by the priority patterns and then all of them are `put` on
    the queue — there is no capacity check on this path. The only capacity
    check is in `crawler_worker` lines 638-643, where a discovered link is
    enqueued only when `url_queue.qsize() < CONFIG["max_queue_size"]`. -/

def lowerStr (s : List Char) : List Char := s.map Char.toLower

def startsWithList : List Char → List Char → Bool
  | [], _ => true
  | _ :: _, [] => false
  | a :: as, b :: bs => a == b && startsWithList as bs

/-- Python's substring test `needle in haystack`. -/
def containsSub (needle : List Char) : List Char → Bool
  | [] => needle.isEmpty
  | c :: rest => startsWithList needle (c :: rest) || containsSub needle rest

def priority_patterns : List (List Char) :=
  ["policies".toList, "students".toList, "support".toList, "faq".toList,
    "help".toList, "contact".toList]

def isPriorityUrl (url : List Char) : Bool :=
  priority_patterns.any (fun p => containsSub p (lowerStr url))

/-- Lines 727-739: build `priority_urls` and `regular_urls`, then put every
priority URL and every regular URL on the queue at depth 0, unconditionally. -/
def seedQueue (startUrls : List (List Char)) : List (List Char × Nat) :=
  ((startUrls.filter isPriorityUrl)
      ++ startUrls.filter (fun u => !isPriorityUrl u)).map (fun u => (u, 0))

/-- `crawler_worker` lines 638-643: one lock-guarded link enqueue. -/
def addLink {υ : Type} [DecidableEq υ] (maxQueueSize : Nat) (visited : List υ)
    (queue : List (υ × Nat)) (link : υ) (depth : Nat) : List (υ × Nat) :=
  if link ∉ visited ∧ queue.length < maxQueueSize then
    queue ++ [(link, depth + 1)]
  else queue

theorem length_filter_add_length_filter_not {α : Type} (l : List α)
    (p : α → Bool) :
    (l.filter p).length + (l.filter (fun a => !p a)).length = l.length := by
  induction l with
  | nil => rfl
  | cons a l ih =>
    by_cases h : p a = true
    · simp only [List.filter_cons, h, if_true, Bool.not_true, Bool.false_eq_true,
        if_false, List.length_cons]
      omega
    · simp only [Bool.not_eq_true] at h
      simp only [List.filter_cons, h, Bool.false_eq_true, if_false,
        Bool.not_false, if_true, List.length_cons]
      omega

/-- C4 counterexample: with seeds A, B, C all three are enqueued — the
seeding path never consults `max_queue_size`, so with `maxQueueSize = 2` the
frontier immediately holds 3 tasks, not 2 as the claim requires. -/
theorem seedQueue_enqueues_all_three_seeds :
    (seedQueue ["a".toList, "b".toList, "c".toList]).length = 3 := by decide

/-- C4 amended: the capacity bound governs only the worker's link enqueues:
a link offered while the frontier is at or above `maxQueueSize` is silently
dropped, and a link enqueue never lifts the frontier above `maxQueueSize`;
the seeding path enqueues every seed unconditionally, so all seeds enter the
queue regardless of capacity. -/
theorem frontier_capacity_amended {υ : Type} [DecidableEq υ]
    (maxQueueSize : Nat) (visited : List υ) (queue : List (υ × Nat))
    (link : υ) (depth : Nat) :
    (maxQueueSize ≤ queue.length →
        addLink maxQueueSize visited queue link depth = queue) ∧
      (queue.length ≤ maxQueueSize →
        (addLink maxQueueSize visited queue link depth).length ≤ maxQueueSize) ∧
      (∀ startUrls : List (List Char),
        (seedQueue startUrls).length = startUrls.length) := by
  refine ⟨?_, ?_, ?_⟩
  · intro h
    have : ¬queue.length < maxQueueSize := Nat.not_lt.mpr h
    simp [addLink, this]
  · intro h
    unfold addLink
    split
    · next hc => simpa using hc.2
    · simpa using h
  · intro startUrls
    simp [seedQueue, length_filter_add_length_filter_not]

/-- Witness: with capacity 2, a full queue drops the offered link; a queue
below capacity stays within the bound; a 3-seed list yields 3 tasks. -/
theorem frontier_capacity_amended_witness :
    (2 ≤ ([(5, 1), (6, 1)] : List (Nat × Nat)).length →
        addLink 2 [9] [(5, 1), (6, 1)] 7 1 = [(5, 1), (6, 1)]) ∧
      (([(5, 1), (6, 1)] : List (Nat × Nat)).length ≤ 2 →
        (addLink 2 [9] [(5, 1), (6, 1)] 7 1).length ≤ 2) ∧
      (∀ startUrls : List (List Char),
        (seedQueue startUrls).length = startUrls.length) :=
  frontier_capacity_amended 2 [9] [(5, 1), (6, 1)] 7 1

/-! ## Two-tier priority queue (C7)

    `crawl_for_links` (agent.py lines 440-455): a discovered link is either
    `to_visit.insert(0, task)` (priority: course-code or fast-track pattern)
    or `to_visit.append(task)`; dequeue is `to_visit.pop(0)`. -/

def enqueueStep {τ : Type} (q : List τ) (priorityFlag : Bool) (t : τ) :
    List τ :=
  if priorityFlag then t :: q else q ++ [t]

def enqueueAll {τ : Type} (ops : List (Bool × τ)) : List τ :=
  ops.foldl (fun q op => enqueueStep q op.1 op.2) []

theorem enqueueAll_aux {τ : Type} (ops : List (Bool × τ)) (p r : List τ) :
    ops.foldl (fun q op => enqueueStep q op.1 op.2) (p ++ r) =
      ((ops.filter (fun o => o.1)).map (fun o => o.2)).reverse ++ p ++ r
        ++ (ops.filter (fun o => !o.1)).map (fun o => o.2) := by
  induction ops generalizing p r with
  | nil => simp
  | cons op rest ih =>
    rcases op with ⟨b, t⟩
    cases b
    · have step : enqueueStep (p ++ r) false t = p ++ (r ++ [t]) := by
        simp [enqueueStep]
      simp only [List.foldl_cons, step]
      rw [ih p (r ++ [t])]
      simp [List.filter_cons, List.append_assoc]
    · have step : enqueueStep (p ++ r) true t = (t :: p) ++ r := by
        simp [enqueueStep]
      simp only [List.foldl_cons, step]
      rw [ih (t :: p) r]
      simp [List.filter_cons, List.append_assoc]

/-- C7 counterexample: two priority tasks enqueued in the order 1 then 2;
`insert(0, ...)` places 2 in front of 1, so the first `pop(0)` yields 2 —
the priority tier is not first-in-first-out. -/
theorem priority_tier_not_fifo :
    enqueueAll [(true, (1 : Nat)), (true, 2)] = [2, 1] ∧
      enqueueAll [(true, (1 : Nat)), (true, 2)] ≠ [1, 2] := by decide

/-- C7 amended: after any sequence of enqueues, every task marked priority
sits ahead of every task not marked priority, the non-priority tier is in
first-in-first-out order, but the priority tier is in LAST-in-first-out
order — each priority task is inserted at position 0, in front of the
priority tasks enqueued before it. -/
theorem enqueueAll_two_tier {τ : Type} (ops : List (Bool × τ)) :
    enqueueAll ops =
      ((ops.filter (fun o => o.1)).map (fun o => o.2)).reverse
        ++ (ops.filter (fun o => !o.1)).map (fun o => o.2) := by
  have h := enqueueAll_aux ops [] []
  simpa [enqueueAll] using h

/-! ## Fetch retry with exponential backoff (C5)
    (`retry_request`, agent.py lines 853-879)

    `outcomes i` is the result of the i-th HTTP attempt: a 200 response, a
    404 (the `status_code == 404` check and the `HTTPError` 404 branch both
    return `None` immediately), another HTTP error status (raised by
    `raise_for_status`), or a network-level `RequestException`. The returned
    list records the `time.sleep(2 ** attempt)` backoff waits performed. -/

inductive FetchOutcome where
  | success
  | notFound
  | httpError (code : Nat)
  | netError
deriving DecidableEq

inductive RetryResult where
  | response
  | noneResult
  | raised
deriving DecidableEq

def retryAux (outcomes : Nat → FetchOutcome) (max_retries attempt : Nat) :
    RetryResult × List Nat :=
  if _h : attempt < max_retries then
    match outcomes attempt with
    | .success => (.response, [])
    | .notFound => (.noneResult, [])
    | .httpError code =>
      if code = 404 then (.noneResult, [])
      else if attempt = max_retries - 1 then (.raised, [])
      else
        let r := retryAux outcomes max_retries (attempt + 1)
        (r.1, 2 ^ attempt :: r.2)
    | .netError =>
      if attempt = max_retries - 1 then (.raised, [])
      else
        let r := retryAux outcomes max_retries (attempt + 1)
        (r.1, 2 ^ attempt :: r.2)
  else (.noneResult, [])
termination_by max_retries - attempt
decreasing_by all_goals omega

def retry_request (outcomes : Nat → FetchOutcome) (max_retries : Nat) :
    RetryResult × List Nat :=
  retryAux outcomes max_retries 0

theorem retryAux_transient (outcomes : Nat → FetchOutcome)
    (max_retries : Nat) :
    ∀ fuel attempt, max_retries - attempt = fuel → attempt < max_retries →
      (∀ i, attempt ≤ i → i < max_retries → outcomes i = .netError) →
      retryAux outcomes max_retries attempt =
        (.raised, (List.range' attempt (max_retries - 1 - attempt)).map
          (fun i => 2 ^ i)) := by
  intro fuel
  induction fuel with
  | zero =>
    intro attempt hfuel hlt hall
    omega
  | succ n ih =>
    intro attempt hfuel hlt hall
    rw [retryAux, dif_pos hlt]
    simp only [hall attempt (Nat.le_refl attempt) hlt]
    by_cases hlast : attempt = max_retries - 1
    · have h0 : max_retries - 1 - attempt = 0 := by omega
      simp [hlast, h0]
    · rw [if_neg hlast]
      have hn : max_retries - (attempt + 1) = n := by omega
      have hlt1 : attempt + 1 < max_retries := by omega
      rw [ih (attempt + 1) hn hlt1 (fun i hi hi2 => hall i (by omega) hi2)]
      have hr : max_retries - 1 - attempt
          = (max_retries - 1 - (attempt + 1)) + 1 := by omega
      rw [hr, List.range'_succ]
      simp

/-- C5: a 404 response is terminal — `retry_request` returns `None` on the
first attempt with no retry and no backoff wait — while transient network
failures are retried up to the bounded `max_retries` attempts, sleeping
`2 ^ attempt` seconds after each failed non-final attempt, before giving up
(the last attempt re-raises). -/
theorem retry_request_backoff_and_404 (outcomes : Nat → FetchOutcome)
    (max_retries : Nat) :
    (outcomes 0 = .notFound → 0 < max_retries →
        retry_request outcomes max_retries = (.noneResult, [])) ∧
      ((∀ i, i < max_retries → outcomes i = .netError) → 0 < max_retries →
        retry_request outcomes max_retries =
          (.raised, (List.range (max_retries - 1)).map (fun i => 2 ^ i))) := by
  constructor
  · intro h404 hpos
    unfold retry_request
    rw [retryAux]
    simp [hpos, h404]
  · intro hall hpos
    unfold retry_request
    rw [retryAux_transient outcomes max_retries (max_retries - 0) 0 rfl hpos
      (fun i _ hi2 => hall i hi2)]
    rw [List.range_eq_range']
    simp

/-- Witness: with `max_retries = 3`, an immediate 404 returns `None` with no
waits, and three straight network errors produce waits of 1 and 2 seconds
and then a raise. -/
theorem retry_request_backoff_and_404_witness :
    retry_request (fun _ => FetchOutcome.notFound) 3 =
        (RetryResult.noneResult, []) ∧
      retry_request (fun _ => FetchOutcome.netError) 3 =
        (RetryResult.raised, [1, 2]) := by
  constructor
  · exact (retry_request_backoff_and_404 (fun _ => FetchOutcome.notFound) 3).1
      rfl (by decide)
  · have h := (retry_request_backoff_and_404
      (fun _ => FetchOutcome.netError) 3).2 (fun i _ => rfl) (by decide)
    simpa using h

/-! ## Monitor loop termination conditions (C6)
    (`scrape_academic_information`, scrape-academic-info.py lines 750-793)

    Every 10 seconds the controller reads `stats["total"]`, the queue size
    and the live-thread count, and leaves the polling loop (then injects one
    poison pill per worker, lines 795-798) when: queue empty and no thread
    alive; or no progress for more than 6 consecutive polls; or the visited
    set reached `max_pages`; or the queue reached `max_queue_size`; or the
    total reached 6000. -/

structure MonitorState where
  lastTotal : Nat
  stallCount : Nat
deriving DecidableEq

structure Poll where
  total : Nat
  queueSize : Nat
  activeThreads : Nat
  visitedCount : Nat
deriving DecidableEq

def pollStep (maxPages maxQueueSize : Nat) (st : MonitorState) (p : Poll) :
    Bool × MonitorState :=
  if p.queueSize = 0 ∧ p.activeThreads = 0 then (true, st)
  else if p.total = st.lastTotal then
    if 6 < st.stallCount + 1 then (true, ⟨st.lastTotal, st.stallCount + 1⟩)
    else if maxPages ≤ p.visitedCount then
      (true, ⟨st.lastTotal, st.stallCount + 1⟩)
    else if maxQueueSize ≤ p.queueSize then
      (true, ⟨st.lastTotal, st.stallCount + 1⟩)
    else if 6000 ≤ p.total then (true, ⟨st.lastTotal, st.stallCount + 1⟩)
    else (false, ⟨st.lastTotal, st.stallCount + 1⟩)
  else
    if maxPages ≤ p.visitedCount then (true, ⟨p.total, 0⟩)
    else if maxQueueSize ≤ p.queueSize then (true, ⟨p.total, 0⟩)
    else if 6000 ≤ p.total then (true, ⟨p.total, 0⟩)
    else (false, ⟨p.total, 0⟩)

/-- C6: the polling loop exits `RUNNING` at a poll if and only if one of the
five conditions holds there: frontier empty with no worker alive; visited
set at least `max_pages`; frontier at least `max_queue_size`; accepted total
at least the 6000 ceiling; or the accepted total unchanged while the stall
counter already reached 6 — i.e. no increase across 7 consecutive polls. -/
theorem pollStep_exits_iff (maxPages maxQueueSize : Nat) (st : MonitorState)
    (p : Poll) :
    (pollStep maxPages maxQueueSize st p).1 = true ↔
      ((p.queueSize = 0 ∧ p.activeThreads = 0) ∨
        maxPages ≤ p.visitedCount ∨
        maxQueueSize ≤ p.queueSize ∨
        6000 ≤ p.total ∨
        (p.total = st.lastTotal ∧ 6 ≤ st.stallCount)) := by
  unfold pollStep
  split_ifs with h1 h2 h3 h4 h5 h6 h7 h8 h9 <;> simp <;> omega

/-! ## Worker failure handling and content categorization (C1)
    (`categorize_content` lines 148-180, `RMITAcademicInfoScraper.__init__`
    lines 104-106, `crawler_worker` lines 599-649 of
    scrape-academic-info.py)

    `crawler_worker` wraps the whole loop body in `try: ... except: break`
    (the bare handler is commented "Queue is empty or timeout"). Exceptions
    inside `extract_content_from_page` are caught there and yield `None`,
    but the record-keeping region `self.stats[content_data['category']] += 1`
    runs directly in the loop body: a `KeyError` there reaches the bare
    handler and the worker breaks out of its dequeue loop instead of
    continuing. `categorize_content` defaults to the category
    `"general-information"`, which `__init__` never adds to `self.stats`
    (it only seeds the keys of `CONFIG["content_categories"]`, `"total"`
    and `"duplicates"`). -/

def content_categories : List (List Char × List (List Char)) :=
  [("policies".toList,
      ["policy".toList, "policies".toList, "regulation".toList,
        "procedure".toList, "guideline".toList, "rule".toList]),
    ("student-support".toList,
      ["support".toList, "help".toList, "service".toList, "wellbeing".toList,
        "counselling".toList, "advice".toList]),
    ("enrollment".toList,
      ["enrol".toList, "enrollment".toList, "admission".toList,
        "apply".toList, "application".toList, "entry".toList]),
    ("fees-scholarships".toList,
      ["fees".toList, "cost".toList, "scholarship".toList,
        "financial".toList, "payment".toList]),
    ("academic-info".toList,
      ["academic".toList, "calendar".toList, "timetable".toList,
        "exam".toList, "assessment".toList, "grade".toList]),
    ("student-life".toList,
      ["student life".toList, "campus".toList, "accommodation".toList,
        "facilities".toList, "clubs".toList]),
    ("research".toList,
      ["research".toList, "phd".toList, "doctorate".toList, "thesis".toList,
        "publication".toList]),
    ("careers".toList,
      ["career".toList, "employment".toList, "job".toList,
        "internship".toList, "placement".toList]),
    ("international".toList,
      ["international".toList, "visa".toList, "overseas".toList,
        "exchange".toList]),
    ("online-learning".toList,
      ["online".toList, "remote".toList, "digital".toList,
        "e-learning".toList]),
    ("faq".toList,
      ["faq".toList, "frequently asked".toList, "question".toList,
        "answer".toList, "help".toList, "guide".toList, "common".toList]),
    ("forms".toList,
      ["form".toList, "document".toList, "template".toList,
        "download".toList]),
    ("contact".toList,
      ["contact".toList, "enquiry".toList, "inquiry".toList, "ask".toList,
        "email".toList, "phone".toList])]

def programUrlPatterns : List (List Char) :=
  ["/bachelor-".toList, "/master-".toList, "/diploma-".toList,
    "/certificate-".toList]

def programTitlePatterns : List (List Char) :=
  ["bachelor of".toList, "master of".toList, "diploma in".toList,
    "certificate in".toList]

def programCodePatterns : List (List Char) :=
  ["program".toList, "BP".toList, "MC".toList, "GC".toList, "GD".toList]

def programCodeExcludePatterns : List (List Char) :=
  ["support".toList, "help".toList, "policy".toList]

def scoreKeywords (url_lower title_lower content_lower : List Char)
    (keywords : List (List Char)) : Nat :=
  keywords.foldl (fun score kw =>
    let s1 := if containsSub kw url_lower then score + 3 else score
    let s2 := if containsSub kw title_lower then s1 + 2 else s1
    if containsSub kw content_lower then s2 + 1 else s2) 0

def categorize_content (url title content : List Char) :
    Option (List Char) :=
  let url_lower := lowerStr url
  let title_lower := if title = [] then [] else lowerStr title
  let content_lower :=
    if content = [] then [] else (lowerStr content).take 1000
  if programUrlPatterns.any (fun p => containsSub p url_lower) then none
  else if programTitlePatterns.any (fun p => containsSub p title_lower) then
    none
  else if programCodePatterns.any (fun p => containsSub p url_lower)
      && !(programCodeExcludePatterns.any
        (fun p => containsSub p url_lower)) then none
  else
    let best := content_categories.foldl (fun acc cat =>
      let score := scoreKeywords url_lower title_lower content_lower cat.2
      if acc.2 < score then (cat.1, score) else acc)
      ("general-information".toList, 0)
    some best.1

/-- The keys seeded into `self.stats` by `__init__` (lines 104-106). -/
def statsKeys : List (List Char) :=
  content_categories.map (fun c => c.1) ++ ["total".toList,
    "duplicates".toList]

def initStats : List (List Char × Nat) := statsKeys.map (fun k => (k, 0))

inductive WorkerOutcome where
  | continueLoop
  | exitLoop
deriving DecidableEq

/-- `self.stats[key] += 1`: `some` of the updated dict, or `none` on
`KeyError`. -/
def bumpStat (stats : List (List Char × Nat)) (key : List Char) :
    Option (List (List Char × Nat)) :=
  if key ∈ stats.map (fun kv => kv.1) then
    some (stats.map (fun kv => if kv.1 = key then (kv.1, kv.2 + 1) else kv))
  else none

/-- The record-keeping region of `crawler_worker` (lines 623-628) under the
bare `except: break` of the loop (lines 647-649): on KeyError the worker
stops pulling tasks (`exitLoop`); otherwise it continues. -/
def workerAcceptStep (stats : List (List Char × Nat)) (category : List Char) :
    WorkerOutcome × List (List Char × Nat) :=
  match bumpStat stats category with
  | none => (.exitLoop, stats)
  | some stats1 =>
    match bumpStat stats1 "total".toList with
    | none => (.exitLoop, stats1)
    | some stats2 => (.continueLoop, stats2)

/-- The gates of `extract_content_from_page` between text extraction and
record assembly (lines 539-556): a body shorter than 50 characters is
dropped (`if len(content) < 50: return None`, lines 540-541); then the
lock-guarded duplicate check drops a body whose fingerprint is already in
`content_hashes` (lines 543-549; the insert and duplicates bump of that
region are modelled by `processContent`); then `categorize_content` runs
and a `None` category (program page) is dropped (lines 551-556). The
result is the category the record will carry, or `none` when the page is
dropped. `hashFn` abstracts `hashlib.md5(content.encode()).hexdigest()`. -/
def pageCategoryAfterGates {β : Type} [DecidableEq β]
    (hashFn : List Char → β) (hashes : List β)
    (url title content : List Char) : Option (List Char) :=
  if content.length < 50 then none
  else if hashFn content ∈ hashes then none
  else categorize_content url title content

/-- One worker iteration after a successful claim (`crawler_worker` lines
618-645): when `extract_content_from_page` returns `None` the worker just
calls `task_done()` and continues; when it returns a record, the
record-keeping region `workerAcceptStep` runs under the loop's bare
`except: break`. -/
def workerProcessTask {β : Type} [DecidableEq β] (hashFn : List Char → β)
    (hashes : List β) (stats : List (List Char × Nat))
    (url title content : List Char) :
    WorkerOutcome × List (List Char × Nat) :=
  match pageCategoryAfterGates hashFn hashes url title content with
  | none => (.continueLoop, stats)
  | some category => workerAcceptStep stats category

/-- C1 fails on the code: a page whose 50-character body contains no
category keyword (url "https://a", title "b", body 50 × 'z') passes the
`len(content) < 50` gate and, in a fresh session, the content-hash check,
and is then categorized as `"general-information"` — a key `__init__`
never put into `self.stats`. The worker's record-keeping
`self.stats[category] += 1` therefore raises `KeyError`; the bare
`except:` of `crawler_worker` then executes `break` — the worker stops
dequeuing instead of dropping just this task and continuing. -/
theorem crawler_worker_exits_on_uncategorized_page :
    pageCategoryAfterGates (fun c => c) [] "https://a".toList "b".toList
        (List.replicate 50 'z') = some "general-information".toList ∧
      "general-information".toList ∉ statsKeys ∧
      (workerProcessTask (fun c => c) [] initStats "https://a".toList
          "b".toList (List.replicate 50 'z')).1 = WorkerOutcome.exitLoop := by
  refine ⟨by decide, by decide, by decide⟩

/-! ## URL normalization (C8, C9)
    (`normalize_url`, agent.py lines 273-291)

    The Python function, on a string `url`:
      `normalized = url.split('#')[0].rstrip('/')` — cut at the first `#`,
      then strip ALL trailing slashes of what remains (note: this happens
      BEFORE the query is examined);
      if `'?' in normalized`: split once at the first `?` into `base` and
      `query`; keep exactly the `&`-separated params that contain `=` and
      whose key (text before the first `=`) lowercases to one of
      `id`, `code`, `course`, `program`; if any param is kept the result is
      `base + '?' + '&'.join(kept)`, else just `base`.
    Strings are `List Char`; `dropFragment` is `split('#')[0]`,
    `rstripSlash` is `rstrip('/')`, `splitOnChar` is `str.split(sep)` and
    `joinSep` is `sep.join`. -/

def dropFragment (l : List Char) : List Char :=
  l.takeWhile (fun c => c != '#')

def rstripSlash (l : List Char) : List Char :=
  (l.reverse.dropWhile (fun c => c == '/')).reverse

def splitOnChar (sep : Char) : List Char → List (List Char)
  | [] => [[]]
  | c :: rest =>
    match splitOnChar sep rest with
    | [] => [[]]
    | p :: ps => if c == sep then [] :: p :: ps else (c :: p) :: ps

def joinSep (sep : Char) : List (List Char) → List Char
  | [] => []
  | [p] => p
  | p :: q :: rest => p ++ sep :: joinSep sep (q :: rest)

def isImportantKey (k : List Char) : Bool :=
  lowerStr k == "id".toList || lowerStr k == "code".toList
    || lowerStr k == "course".toList || lowerStr k == "program".toList

def paramKept (p : List Char) : Bool :=
  decide (('=' : Char) ∈ p)
    && isImportantKey (p.takeWhile (fun c => c != '='))

def baseOf (n : List Char) : List Char := n.takeWhile (fun c => c != '?')

def queryOf (n : List Char) : List Char :=
  (n.dropWhile (fun c => c != '?')).tail

def importantOf (n : List Char) : List (List Char) :=
  (splitOnChar '&' (queryOf n)).filter paramKept

def normalizeQuery (n : List Char) : List Char :=
  if ('?' : Char) ∈ n then
    if importantOf n = [] then baseOf n
    else baseOf n ++ '?' :: joinSep '&' (importantOf n)
  else n

def normalize_url (url : List Char) : List Char :=
  normalizeQuery (rstripSlash (dropFragment url))

/-- C9 counterexample: `normalize_url` is not idempotent. For
`"http://a/?x=1"` the whole query is dropped, exposing the trailing slash of
the base — which a second application then strips:
first pass `"http://a/"`, second pass `"http://a"`. -/
theorem normalize_url_not_idempotent :
    normalize_url (normalize_url "http://a/?x=1".toList) ≠
        normalize_url "http://a/?x=1".toList ∧
      normalize_url "http://a/?x=1".toList = "http://a/".toList ∧
      normalize_url "http://a/".toList = "http://a".toList := by decide

/-- C8 counterexample: `"x/?utm=a"` and `"x/"` differ only by the query
parameter `utm=a`, whose key is outside the retained whitelist, yet they
normalize to different strings (`"x/"` vs `"x"`); the first result also
still ends with a trailing slash, so normalization does not strip the
trailing slash from every URL. -/
theorem normalize_url_query_noise_counterexample :
    normalize_url "x/?utm=a".toList ≠ normalize_url "x/".toList ∧
      normalize_url "x/?utm=a".toList = "x/".toList ∧
      normalize_url "x/".toList = "x".toList ∧
      (normalize_url "x/?utm=a".toList).getLast? = some '/' := by decide

theorem splitOnChar_cons_eq (sep c : Char) (rest q : List Char)
    (qs : List (List Char)) (h : splitOnChar sep rest = q :: qs) :
    splitOnChar sep (c :: rest) =
      if c == sep then [] :: q :: qs else (c :: q) :: qs := by
  rw [splitOnChar, h]

theorem splitOnChar_ne_nil (sep : Char) (l : List Char) :
    splitOnChar sep l ≠ [] := by
  cases l with
  | nil => simp [splitOnChar]
  | cons c rest =>
    cases h : splitOnChar sep rest with
    | nil =>
      rw [splitOnChar, h]
      simp
    | cons q qs =>
      rw [splitOnChar_cons_eq sep c rest q qs h]
      split <;> simp

theorem exists_cons_of_splitOnChar (sep : Char) (l : List Char) :
    ∃ q qs, splitOnChar sep l = q :: qs := by
  cases h : splitOnChar sep l with
  | nil => exact absurd h (splitOnChar_ne_nil sep l)
  | cons q qs => exact ⟨q, qs, rfl⟩

theorem mem_splitOnChar_no_sep (sep : Char) (l : List Char) :
    ∀ p ∈ splitOnChar sep l, sep ∉ p := by
  induction l with
  | nil =>
    intro p hp
    simp only [splitOnChar, List.mem_singleton] at hp
    simp [hp]
  | cons c rest ih =>
    obtain ⟨q, qs, h⟩ := exists_cons_of_splitOnChar sep rest
    rw [h] at ih
    intro p hp
    rw [splitOnChar_cons_eq sep c rest q qs h] at hp
    by_cases hc : (c == sep) = true
    · rw [if_pos hc] at hp
      rcases List.mem_cons.mp hp with rfl | hp2
      · simp
      · exact ih p hp2
    · rw [if_neg hc] at hp
      rcases List.mem_cons.mp hp with rfl | hp2
      · intro hmem
        rcases List.mem_cons.mp hmem with heq | hmem2
        · rw [heq] at hc
          simp at hc
        · exact ih q (List.mem_cons_self q qs) hmem2
      · exact ih p (List.mem_cons_of_mem q hp2)

theorem mem_of_mem_splitOnChar (sep : Char) (l : List Char) :
    ∀ p ∈ splitOnChar sep l, ∀ a ∈ p, a ∈ l := by
  induction l with
  | nil =>
    intro p hp a ha
    simp only [splitOnChar, List.mem_singleton] at hp
    subst hp
    simp at ha
  | cons c rest ih =>
    obtain ⟨q, qs, h⟩ := exists_cons_of_splitOnChar sep rest
    rw [h] at ih
    intro p hp a ha
    rw [splitOnChar_cons_eq sep c rest q qs h] at hp
    by_cases hc : (c == sep) = true
    · rw [if_pos hc] at hp
      rcases List.mem_cons.mp hp with rfl | hp2
      · simp at ha
      · exact List.mem_cons_of_mem c (ih p hp2 a ha)
    · rw [if_neg hc] at hp
      rcases List.mem_cons.mp hp with rfl | hp2
      · rcases List.mem_cons.mp ha with rfl | ha2
        · exact List.mem_cons_self a rest
        · exact List.mem_cons_of_mem c (ih q (List.mem_cons_self q qs) a ha2)
      · exact List.mem_cons_of_mem c (ih p (List.mem_cons_of_mem q hp2) a ha)

theorem splitOnChar_of_no_sep (sep : Char) (p : List Char) (h : sep ∉ p) :
    splitOnChar sep p = [p] := by
  induction p with
  | nil => rfl
  | cons c rest ih =>
    have hrest := ih (fun hm => h (List.mem_cons_of_mem c hm))
    rw [splitOnChar_cons_eq sep c rest rest [] hrest]
    have hc : c ≠ sep := by
      rintro rfl
      exact h (List.mem_cons_self c rest)
    simp [hc]

theorem splitOnChar_append (sep : Char) (p t : List Char) (h : sep ∉ p) :
    splitOnChar sep (p ++ sep :: t) = p :: splitOnChar sep t := by
  induction p with
  | nil =>
    obtain ⟨q, qs, ht⟩ := exists_cons_of_splitOnChar sep t
    rw [List.nil_append, splitOnChar_cons_eq sep sep t q qs ht]
    simp [ht]
  | cons c rest ih =>
    have hc : c ≠ sep := by
      rintro rfl
      exact h (List.mem_cons_self c rest)
    have hrest := ih (fun hm => h (List.mem_cons_of_mem c hm))
    rw [List.cons_append,
      splitOnChar_cons_eq sep c (rest ++ sep :: t) rest (splitOnChar sep t)
        hrest]
    simp [hc]

theorem splitOnChar_joinSep (sep : Char) (L : List (List Char))
    (hne : L ≠ []) (hfree : ∀ p ∈ L, sep ∉ p) :
    splitOnChar sep (joinSep sep L) = L := by
  induction L with
  | nil => exact absurd rfl hne
  | cons p rest ih =>
    cases rest with
    | nil =>
      rw [joinSep]
      exact splitOnChar_of_no_sep sep p (hfree p (List.mem_cons_self p []))
    | cons q rest2 =>
      rw [joinSep]
      rw [splitOnChar_append sep p (joinSep sep (q :: rest2))
        (hfree p (List.mem_cons_self p _))]
      rw [ih (by simp) (fun r hr => hfree r (List.mem_cons_of_mem p hr))]

theorem mem_joinSep (sep : Char) (L : List (List Char)) :
    ∀ a ∈ joinSep sep L, a = sep ∨ ∃ p ∈ L, a ∈ p := by
  induction L with
  | nil =>
    intro a ha
    simp [joinSep] at ha
  | cons p rest ih =>
    cases rest with
    | nil =>
      intro a ha
      rw [joinSep] at ha
      exact Or.inr ⟨p, List.mem_cons_self p [], ha⟩
    | cons q rest2 =>
      intro a ha
      rw [joinSep] at ha
      rcases List.mem_append.mp ha with hp | hrest
      · exact Or.inr ⟨p, List.mem_cons_self p _, hp⟩
      · rcases List.mem_cons.mp hrest with rfl | h2
        · exact Or.inl rfl
        · rcases ih a h2 with hs | ⟨r, hr, har⟩
          · exact Or.inl hs
          · exact Or.inr ⟨r, List.mem_cons_of_mem p hr, har⟩

theorem head?_dropWhile_false {α : Type} (p : α → Bool) (l : List α) (a : α)
    (h : (l.dropWhile p).head? = some a) : p a = false := by
  induction l with
  | nil => simp [List.dropWhile] at h
  | cons c rest ih =>
    rw [List.dropWhile_cons] at h
    by_cases hc : p c = true
    · rw [if_pos hc] at h
      exact ih h
    · rw [if_neg hc] at h
      simp only [List.head?_cons, Option.some.injEq] at h
      subst h
      cases hpc : p c with
      | false => rfl
      | true => exact absurd hpc hc

theorem rstripSlash_eq_self (l : List Char) (h : l.getLast? ≠ some '/') :
    rstripSlash l = l := by
  unfold rstripSlash
  cases hr : l.reverse with
  | nil =>
    have hl : l = [] := List.reverse_eq_nil_iff.mp hr
    simp [hl]
  | cons a t =>
    have hh : l.getLast? = some a := by
      rw [← List.head?_reverse, hr]
      rfl
    have ha : (a == '/') = false := by
      have hne : a ≠ '/' := fun heq => h (heq ▸ hh)
      simp [hne]
    rw [List.dropWhile_cons, ha]
    simp [← hr]

theorem getLast?_rstripSlash (l : List Char) :
    (rstripSlash l).getLast? ≠ some '/' := by
  unfold rstripSlash
  have h1 : ((l.reverse.dropWhile (fun c => c == '/')).reverse).getLast?
      = (l.reverse.dropWhile (fun c => c == '/')).head? := by
    rw [← List.head?_reverse, List.reverse_reverse]
  rw [h1]
  intro hcontra
  have := head?_dropWhile_false (fun c => c == '/') l.reverse '/' hcontra
  simp at this

theorem mem_rstripSlash (l : List Char) (a : Char) (h : a ∈ rstripSlash l) :
    a ∈ l := by
  unfold rstripSlash at h
  rw [List.mem_reverse] at h
  have h2 := (List.dropWhile_sublist _).subset h
  rw [List.mem_reverse] at h2
  exact h2

theorem takeWhile_neq_append (x : Char) (b t : List Char) (h : x ∉ b) :
    (b ++ x :: t).takeWhile (fun c => c != x) = b := by
  induction b with
  | nil => simp [List.takeWhile_cons]
  | cons a b ih =>
    have ha : a ≠ x := by
      rintro rfl
      exact h (List.mem_cons_self a b)
    have hb : x ∉ b := fun hm => h (List.mem_cons_of_mem a hm)
    simp [List.takeWhile_cons, ha, ih hb]

theorem dropWhile_neq_append (x : Char) (b t : List Char) (h : x ∉ b) :
    (b ++ x :: t).dropWhile (fun c => c != x) = x :: t := by
  induction b with
  | nil => simp [List.dropWhile_cons]
  | cons a b ih =>
    have ha : a ≠ x := by
      rintro rfl
      exact h (List.mem_cons_self a b)
    have hb : x ∉ b := fun hm => h (List.mem_cons_of_mem a hm)
    simp [List.dropWhile_cons, ha, ih hb]

theorem hash_not_mem_dropFragment (l : List Char) :
    ('#' : Char) ∉ dropFragment l := by
  intro h
  have := List.mem_takeWhile_imp h
  simp at this

theorem dropFragment_eq_self (l : List Char) (h : ('#' : Char) ∉ l) :
    dropFragment l = l := by
  unfold dropFragment
  rw [List.takeWhile_eq_self_iff]
  intro x hx
  have hne : x ≠ '#' := fun heq => h (heq ▸ hx)
  simp [hne]

theorem baseOf_no_query_mark (n : List Char) : ('?' : Char) ∉ baseOf n := by
  intro h
  have := List.mem_takeWhile_imp h
  simp at this

theorem baseOf_append (b t : List Char) (h : ('?' : Char) ∉ b) :
    baseOf (b ++ '?' :: t) = b :=
  takeWhile_neq_append '?' b t h

theorem queryOf_append (b t : List Char) (h : ('?' : Char) ∉ b) :
    queryOf (b ++ '?' :: t) = t := by
  unfold queryOf
  rw [dropWhile_neq_append '?' b t h]
  rfl

theorem importantOf_append (b t : List Char) (h : ('?' : Char) ∉ b) :
    importantOf (b ++ '?' :: t) = (splitOnChar '&' t).filter paramKept := by
  unfold importantOf
  rw [queryOf_append b t h]

theorem mem_baseOf (n : List Char) (a : Char) (h : a ∈ baseOf n) : a ∈ n :=
  (List.takeWhile_sublist _).subset h

theorem mem_queryOf (n : List Char) (a : Char) (h : a ∈ queryOf n) : a ∈ n :=
  (List.dropWhile_sublist _).subset ((List.tail_sublist _).subset h)

theorem mem_normalizeQuery (n : List Char) (a : Char)
    (h : a ∈ normalizeQuery n) : a ∈ n ∨ a = '?' ∨ a = '&' := by
  unfold normalizeQuery at h
  by_cases hq : ('?' : Char) ∈ n
  · rw [if_pos hq] at h
    by_cases himp : importantOf n = []
    · rw [if_pos himp] at h
      exact Or.inl (mem_baseOf n a h)
    · rw [if_neg himp] at h
      rcases List.mem_append.mp h with hb | hc
      · exact Or.inl (mem_baseOf n a hb)
      · rcases List.mem_cons.mp hc with rfl | hj
        · exact Or.inr (Or.inl rfl)
        · rcases mem_joinSep '&' (importantOf n) a hj with rfl | ⟨p, hp, hap⟩
          · exact Or.inr (Or.inr rfl)
          · have hps : p ∈ splitOnChar '&' (queryOf n) :=
              List.mem_of_mem_filter hp
            exact Or.inl (mem_queryOf n a
              (mem_of_mem_splitOnChar '&' (queryOf n) p hps a hap))
  · rw [if_neg hq] at h
    exact Or.inl h

theorem normalizeQuery_no_query (n : List Char) (h : ('?' : Char) ∉ n) :
    normalizeQuery n = n := by
  unfold normalizeQuery
  rw [if_neg h]

theorem normalizeQuery_eq_base (n : List Char) (hq : ('?' : Char) ∈ n)
    (himp : importantOf n = []) : normalizeQuery n = baseOf n := by
  unfold normalizeQuery
  rw [if_pos hq, if_pos himp]

theorem normalizeQuery_eq_full (n : List Char) (hq : ('?' : Char) ∈ n)
    (himp : importantOf n ≠ []) :
    normalizeQuery n = baseOf n ++ '?' :: joinSep '&' (importantOf n) := by
  unfold normalizeQuery
  rw [if_pos hq, if_neg himp]

theorem importantOf_of_append (b : List Char) (L : List (List Char))
    (hb : ('?' : Char) ∉ b) (hne : L ≠ [])
    (hfree : ∀ p ∈ L, ('&' : Char) ∉ p)
    (hkept : ∀ p ∈ L, paramKept p = true) :
    importantOf (b ++ '?' :: joinSep '&' L) = L := by
  rw [importantOf_append b _ hb]
  rw [splitOnChar_joinSep '&' L hne hfree]
  exact List.filter_eq_self.mpr hkept

theorem normalizeQuery_idem (n : List Char) :
    normalizeQuery (normalizeQuery n) = normalizeQuery n := by
  by_cases hq : ('?' : Char) ∈ n
  · by_cases himp : importantOf n = []
    · rw [normalizeQuery_eq_base n hq himp]
      exact normalizeQuery_no_query (baseOf n) (baseOf_no_query_mark n)
    · rw [normalizeQuery_eq_full n hq himp]
      have hq2 : ('?' : Char) ∈ baseOf n ++ '?' :: joinSep '&'
          (importantOf n) := by simp
      have hfree : ∀ p ∈ importantOf n, ('&' : Char) ∉ p := fun p hp =>
        mem_splitOnChar_no_sep '&' (queryOf n) p (List.mem_of_mem_filter hp)
      have hkept : ∀ p ∈ importantOf n, paramKept p = true := fun p hp =>
        List.of_mem_filter hp
      have himp2 : importantOf (baseOf n ++ '?' :: joinSep '&'
          (importantOf n)) = importantOf n :=
        importantOf_of_append (baseOf n) (importantOf n)
          (baseOf_no_query_mark n) himp hfree hkept
      rw [normalizeQuery_eq_full _ hq2 (by rw [himp2]; exact himp)]
      rw [himp2]
      rw [baseOf_append (baseOf n) (joinSep '&' (importantOf n))
        (baseOf_no_query_mark n)]
  · rw [normalizeQuery_no_query n hq, normalizeQuery_no_query n hq]

theorem hash_not_mem_normalize_url (u : List Char) :
    ('#' : Char) ∉ normalize_url u := by
  intro h
  unfold normalize_url at h
  rcases mem_normalizeQuery _ _ h with hmem | h2 | h3
  · exact hash_not_mem_dropFragment u (mem_rstripSlash _ _ hmem)
  · exact absurd h2 (by decide)
  · exact absurd h3 (by decide)

/-- C9 amended: `normalize_url` is idempotent on every URL whose normal
form does not end in a trailing slash; in general a slash exposed by
dropping the whole query survives the first pass (see the counterexample),
so only that family of URLs needs a second pass. -/
theorem normalize_url_idem (u : List Char)
    (h : (normalize_url u).getLast? ≠ some '/') :
    normalize_url (normalize_url u) = normalize_url u := by
  have hdf : dropFragment (normalize_url u) = normalize_url u :=
    dropFragment_eq_self _ (hash_not_mem_normalize_url u)
  have hrs : rstripSlash (normalize_url u) = normalize_url u :=
    rstripSlash_eq_self _ h
  show normalizeQuery (rstripSlash (dropFragment (normalize_url u)))
      = normalize_url u
  rw [hdf, hrs]
  show normalizeQuery (normalizeQuery (rstripSlash (dropFragment u)))
      = normalizeQuery (rstripSlash (dropFragment u))
  exact normalizeQuery_idem _

/-- Witness: the normal form of `"http://a?id=2"` ends in `'2'`, so a second
normalization leaves it unchanged. -/
theorem normalize_url_idem_witness :
    normalize_url (normalize_url "http://a?id=2".toList) =
      normalize_url "http://a?id=2".toList :=
  normalize_url_idem _ (by decide)

/-- C8 amended: (1) two URLs that differ only in the fragment normalize to
the same string; (2) the fragment never survives normalization; (3) two
URLs with the same query-free base that retain exactly the same whitelisted
query parameters normalize identically, provided neither URL ends with a
trailing slash (the raw `rstrip('/')` otherwise distinguishes them — see
the counterexample); (4) the trailing slash is stripped from every URL
whose fragment-free part carries no query (with a query, dropping all
parameters can leave a slash behind). -/
theorem normalize_url_equivalences :
    (∀ b f1 f2 : List Char, ('#' : Char) ∉ b →
        normalize_url (b ++ '#' :: f1) = normalize_url (b ++ '#' :: f2)) ∧
      (∀ u : List Char, ('#' : Char) ∉ normalize_url u) ∧
      (∀ b q1 q2 : List Char, ('#' : Char) ∉ b → ('#' : Char) ∉ q1 →
        ('#' : Char) ∉ q2 → ('?' : Char) ∉ b →
        (b ++ '?' :: q1).getLast? ≠ some '/' →
        (b ++ '?' :: q2).getLast? ≠ some '/' →
        (splitOnChar '&' q1).filter paramKept =
          (splitOnChar '&' q2).filter paramKept →
        normalize_url (b ++ '?' :: q1) = normalize_url (b ++ '?' :: q2)) ∧
      (∀ u : List Char, ('?' : Char) ∉ dropFragment u →
        (normalize_url u).getLast? ≠ some '/') := by
  refine ⟨?_, hash_not_mem_normalize_url, ?_, ?_⟩
  · intro b f1 f2 hb
    unfold normalize_url dropFragment
    rw [takeWhile_neq_append '#' b f1 hb, takeWhile_neq_append '#' b f2 hb]
  · intro b q1 q2 hb hq1 hq2 hqb hl1 hl2 hfilter
    have hhash1 : ('#' : Char) ∉ b ++ '?' :: q1 := by
      intro hm
      rcases List.mem_append.mp hm with hmb | hmq
      · exact hb hmb
      · rcases List.mem_cons.mp hmq with heq | hmq2
        · exact absurd heq (by decide)
        · exact hq1 hmq2
    have hhash2 : ('#' : Char) ∉ b ++ '?' :: q2 := by
      intro hm
      rcases List.mem_append.mp hm with hmb | hmq
      · exact hb hmb
      · rcases List.mem_cons.mp hmq with heq | hmq2
        · exact absurd heq (by decide)
        · exact hq2 hmq2
    have e1 : normalize_url (b ++ '?' :: q1)
        = normalizeQuery (b ++ '?' :: q1) := by
      unfold normalize_url
      rw [dropFragment_eq_self _ hhash1, rstripSlash_eq_self _ hl1]
    have e2 : normalize_url (b ++ '?' :: q2)
        = normalizeQuery (b ++ '?' :: q2) := by
      unfold normalize_url
      rw [dropFragment_eq_self _ hhash2, rstripSlash_eq_self _ hl2]
    rw [e1, e2]
    have hm1 : ('?' : Char) ∈ b ++ '?' :: q1 := by simp
    have hm2 : ('?' : Char) ∈ b ++ '?' :: q2 := by simp
    unfold normalizeQuery
    rw [if_pos hm1, if_pos hm2]
    rw [importantOf_append b q1 hqb, importantOf_append b q2 hqb]
    rw [baseOf_append b q1 hqb, baseOf_append b q2 hqb]
    rw [hfilter]
  · intro u hqn
    have hq2 : ('?' : Char) ∉ rstripSlash (dropFragment u) :=
      fun hm => hqn (mem_rstripSlash _ _ hm)
    unfold normalize_url
    rw [normalizeQuery_no_query _ hq2]
    exact getLast?_rstripSlash _

/-- Witness: a fragment change, a hash-free result, the ignorable parameter
`utm=3` next to the kept `id=2`, and slash-stripping on a query-free URL. -/
theorem normalize_url_equivalences_witness :
    normalize_url ("ax".toList ++ '#' :: "f1".toList) =
        normalize_url ("ax".toList ++ '#' :: "f2".toList) ∧
      ('#' : Char) ∉ normalize_url "b#c".toList ∧
      normalize_url ("x".toList ++ '?' :: "id=2&utm=3".toList) =
        normalize_url ("x".toList ++ '?' :: "id=2".toList) ∧
      (normalize_url "abc/".toList).getLast? ≠ some '/' :=
  ⟨normalize_url_equivalences.1 "ax".toList "f1".toList "f2".toList
      (by decide),
    normalize_url_equivalences.2.1 "b#c".toList,
    normalize_url_equivalences.2.2.1 "x".toList "id=2&utm=3".toList
      "id=2".toList (by decide) (by decide) (by decide) (by decide)
      (by decide) (by decide) (by decide),
    normalize_url_equivalences.2.2.2 "abc/".toList (by decide)⟩
